import Mathlib

/-!
# go-apibuilder: password hashing subsystem, shallow embedding

Shallow embedding of `internal/util/password.go` (PBKDF2-HMAC-SHA256 password
hashing and verification) and of the password handling in
`internal/repository/user.go` (`UpdateUser`).

Go strings are modelled as `List Char`; byte slices as `List Nat` whose
elements are below 256.  Machine integers are modelled as `Nat`/`Int` with
explicit reduction modulo `2^32` where 32-bit overflow matters.
-/

set_option maxRecDepth 100000

namespace GoApiBuilder

instance {ε α : Type} [DecidableEq ε] [DecidableEq α] : DecidableEq (Except ε α) := fun x y =>
  match x, y with
  | .ok a, .ok b =>
      if h : a = b then .isTrue (congrArg Except.ok h)
      else .isFalse fun hc => h (Except.ok.inj hc)
  | .error a, .error b =>
      if h : a = b then .isTrue (congrArg Except.error h)
      else .isFalse fun hc => h (Except.error.inj hc)
  | .ok _, .error _ => .isFalse fun hc => Except.noConfusion hc
  | .error _, .ok _ => .isFalse fun hc => Except.noConfusion hc

/-- Truncation to an unsigned 32-bit word, as Go `uint32` arithmetic does. -/
def w32 (n : Nat) : Nat := n % 4294967296

/-- 32-bit rotate right. -/
def rotr32 (x n : Nat) : Nat := w32 ((x >>> n) ||| (x <<< (32 - n)))

/-- Big-endian serialization of a 32-bit word into 4 bytes
(`byte(x>>24), byte(x>>16), byte(x>>8), byte(x)` in Go). -/
def beBytes4 (x : Nat) : List Nat :=
  [x >>> 24 % 256, x >>> 16 % 256, x >>> 8 % 256, x % 256]

/-- Big-endian serialization of a 64-bit word into 8 bytes. -/
def beBytes8 (x : Nat) : List Nat :=
  [x >>> 56 % 256, x >>> 48 % 256, x >>> 40 % 256, x >>> 32 % 256,
   x >>> 24 % 256, x >>> 16 % 256, x >>> 8 % 256, x % 256]

/-- Big-endian 32-bit words from a byte list (4 bytes per word). -/
def beWords : List Nat → List Nat
  | b0 :: b1 :: b2 :: b3 :: rest =>
      (((b0 * 256 + b1) * 256 + b2) * 256 + b3) :: beWords rest
  | _ => []

/-- The SHA-256 round constants (FIPS 180-4), as in Go `crypto/sha256`,
written as decimal `Nat` literals. -/
def sha256K : List Nat :=
  [1116352408, 1899447441, 3049323471, 3921009573, 961987163, 1508970993,
   2453635748, 2870763221, 3624381080, 310598401, 607225278, 1426881987,
   1925078388, 2162078206, 2614888103, 3248222580, 3835390401, 4022224774,
   264347078, 604807628, 770255983, 1249150122, 1555081692, 1996064986,
   2554220882, 2821834349, 2952996808, 3210313671, 3336571891, 3584528711,
   113926993, 338241895, 666307205, 773529912, 1294757372, 1396182291,
   1695183700, 1986661051, 2177026350, 2456956037, 2730485921, 2820302411,
   3259730800, 3345764771, 3516065817, 3600352804, 4094571909, 275423344,
   430227734, 506948616, 659060556, 883997877, 958139571, 1322822218,
   1537002063, 1747873779, 1955562222, 2024104815, 2227730452, 2361852424,
   2428436474, 2756734187, 3204031479, 3329325298]

/-- SHA-256 working state: the eight 32-bit words `a`–`h`. -/
structure Sha256State where
  a : Nat
  b : Nat
  c : Nat
  d : Nat
  e : Nat
  f : Nat
  g : Nat
  h : Nat

/-- SHA-256 initial hash value, as decimal `Nat` literals. -/
def sha256InitState : Sha256State :=
  ⟨1779033703, 3144134277, 1013904242, 2773480762,
   1359893119, 2600822924, 528734635, 1541459225⟩

/-- One new word of the SHA-256 message schedule, from the words so far. -/
def sha256ExtendStep (w : List Nat) : Nat :=
  let i := w.length
  let w15 := w.getD (i - 15) 0
  let w2 := w.getD (i - 2) 0
  let s0 := (rotr32 w15 7) ^^^ (rotr32 w15 18) ^^^ (w15 >>> 3)
  let s1 := (rotr32 w2 17) ^^^ (rotr32 w2 19) ^^^ (w2 >>> 10)
  w32 (w.getD (i - 16) 0 + s0 + w.getD (i - 7) 0 + s1)

/-- Extend the 16 block words to the 64 schedule words (48 extension steps). -/
def sha256Extend : Nat → List Nat → List Nat
  | 0, w => w
  | n + 1, w => sha256Extend n (w ++ [sha256ExtendStep w])

/-- One SHA-256 compression round with round constant `k` and schedule word `w`. -/
def sha256Round (s : Sha256State) (k w : Nat) : Sha256State :=
  let bigS1 := (rotr32 s.e 6) ^^^ (rotr32 s.e 11) ^^^ (rotr32 s.e 25)
  let ch := (s.e &&& s.f) ^^^ ((4294967295 ^^^ s.e) &&& s.g)
  let temp1 := w32 (s.h + bigS1 + ch + k + w)
  let bigS0 := (rotr32 s.a 2) ^^^ (rotr32 s.a 13) ^^^ (rotr32 s.a 22)
  let maj := (s.a &&& s.b) ^^^ (s.a &&& s.c) ^^^ (s.b &&& s.c)
  let temp2 := w32 (bigS0 + maj)
  ⟨w32 (temp1 + temp2), s.a, s.b, s.c, w32 (s.d + temp1), s.e, s.f, s.g⟩

/-- Compress one 64-byte block into the state. -/
def sha256Compress (h0 : Sha256State) (block : List Nat) : Sha256State :=
  let ws := sha256Extend 48 (beWords block)
  let s := (sha256K.zip ws).foldl (fun st kw => sha256Round st kw.1 kw.2) h0
  ⟨w32 (h0.a + s.a), w32 (h0.b + s.b), w32 (h0.c + s.c), w32 (h0.d + s.d),
   w32 (h0.e + s.e), w32 (h0.f + s.f), w32 (h0.g + s.g), w32 (h0.h + s.h)⟩

/-- Fold the compression function over the 64-byte blocks of the message.
Structural recursion on a fuel counter (any fuel `≥ data.length` gives the
Go loop, since each step drops 64 bytes); the kernel can then evaluate it. -/
def sha256BlocksF : Nat → Sha256State → List Nat → Sha256State
  | _, h0, [] => h0
  | 0, h0, _ :: _ => h0
  | fuel + 1, h0, b :: rest =>
      sha256BlocksF fuel (sha256Compress h0 ((b :: rest).take 64)) ((b :: rest).drop 64)

/-- Merkle–Damgård padding: a `0x80` byte, zeros, then the 64-bit bit length. -/
def sha256Pad (msg : List Nat) : List Nat :=
  msg ++ 128 :: List.replicate ((119 - msg.length % 64) % 64) 0
      ++ beBytes8 (msg.length * 8)

/-- Serialize the final state to the 32-byte digest. -/
def sha256Final (s : Sha256State) : List Nat :=
  beBytes4 s.a ++ beBytes4 s.b ++ beBytes4 s.c ++ beBytes4 s.d ++
  beBytes4 s.e ++ beBytes4 s.f ++ beBytes4 s.g ++ beBytes4 s.h

/-- SHA-256 of a byte list (Go `crypto/sha256`). -/
def sha256 (msg : List Nat) : List Nat :=
  sha256Final (sha256BlocksF (sha256Pad msg).length sha256InitState (sha256Pad msg))

/-- HMAC-SHA256 (Go `crypto/hmac` with `sha256.New`): keys longer than the
64-byte block size are first hashed, the key is zero-padded to 64 bytes, and
the digest is `H((k ⊕ opad) ∥ H((k ⊕ ipad) ∥ msg))`. -/
def hmacSha256 (key msg : List Nat) : List Nat :=
  let k0 := if 64 < key.length then sha256 key else key
  let kp := k0 ++ List.replicate (64 - k0.length) 0
  sha256 ((kp.map fun b => b ^^^ 92) ++ sha256 ((kp.map fun b => b ^^^ 54) ++ msg))

/-- The inner loop of `pbkdf2.Key` (golang.org/x/crypto/pbkdf2): starting from
`t = u = U₁`, repeat `u ← PRF(u)`, `t ← t ⊕ u`.  The Go loop `for n := 2;
n <= iter; n++` runs `max (iter-1) 0` times, which is the `n` passed here. -/
def pbkdf2Inner (password : List Nat) : Nat → List Nat → List Nat → List Nat
  | 0, t, _ => t
  | n + 1, t, u =>
      let u2 := hmacSha256 password u
      pbkdf2Inner password n (List.zipWith (· ^^^ ·) t u2) u2

/-- One output block `T_blockIdx` of PBKDF2:
`U₁ = PRF(salt ∥ BE32(blockIdx))`, then the xor-accumulating inner loop. -/
def pbkdf2Block (password salt : List Nat) (iter : Int) (blockIdx : Nat) : List Nat :=
  let u1 := hmacSha256 password (salt ++ beBytes4 blockIdx)
  pbkdf2Inner password (iter - 1).toNat u1 u1

/-- `pbkdf2.Key(password, salt, iter, keyLen, sha256.New)` from
golang.org/x/crypto/pbkdf2: `numBlocks = ⌈keyLen/32⌉` blocks, concatenated and
truncated to `keyLen` bytes.  `iter` is an `int` in Go and may be non-positive,
in which case the inner loop body never runs (the block is just `U₁`). -/
def pbkdf2Key (password salt : List Nat) (iter : Int) (keyLen : Nat) : List Nat :=
  let numBlocks := (keyLen + 31) / 32
  (((List.range numBlocks).map fun i => pbkdf2Block password salt iter (i + 1)).flatten).take keyLen

/-- Go `crypto/subtle.ConstantTimeByteEq(x, y)`:
`int((uint32(x^y) - 1) >> 31)`, with the `uint32` subtraction wrapping. -/
def constantTimeByteEq (x y : Nat) : Nat :=
  (((x ^^^ y) + 4294967295) % 4294967296) >>> 31

/-- Go `crypto/subtle.ConstantTimeCompare(x, y)`: for equal lengths, OR
together the xor of every byte pair (no early exit) and test the accumulator
against zero; `0` for differing lengths. -/
def constantTimeCompare (x y : List Nat) : Nat :=
  if x.length = y.length then
    constantTimeByteEq ((x.zip y).foldl (fun v p => v ||| (p.1 ^^^ p.2)) 0) 0
  else 0

/-- `ConstantTimeCompare` instrumented with an operation counter: the second
component counts how many byte positions the loop visits.  Used to state the
constant-time property as "the number of byte operations depends only on the
input lengths, never on the byte values". -/
def constantTimeCompareInstr (x y : List Nat) : Nat × Nat :=
  if x.length = y.length then
    let r := (x.zip y).foldl (fun acc p => (acc.1 ||| (p.1 ^^^ p.2), acc.2 + 1)) (0, 0)
    (constantTimeByteEq r.1 0, r.2)
  else (0, 0)

/-! ## Base64 (Go `encoding/base64` `RawStdEncoding`) -/

/-- The standard base64 alphabet. -/
def base64Alphabet : List Char :=
  ['A', 'B', 'C', 'D', 'E', 'F', 'G', 'H', 'I', 'J', 'K', 'L', 'M',
   'N', 'O', 'P', 'Q', 'R', 'S', 'T', 'U', 'V', 'W', 'X', 'Y', 'Z',
   'a', 'b', 'c', 'd', 'e', 'f', 'g', 'h', 'i', 'j', 'k', 'l', 'm',
   'n', 'o', 'p', 'q', 'r', 's', 't', 'u', 'v', 'w', 'x', 'y', 'z',
   '0', '1', '2', '3', '4', '5', '6', '7', '8', '9', '+', '/']

/-- The alphabet character for a sextet value. -/
def b64Chr (n : Nat) : Char := base64Alphabet.getD n 'A'

/-- Position of a character in the base64 alphabet, `none` if absent. -/
def b64IndexAux (c : Char) : List Char → Nat → Option Nat
  | [], _ => none
  | a :: rest, n => if a = c then some n else b64IndexAux c rest (n + 1)

/-- Sextet value of a base64 character, `none` for characters outside the
alphabet (Go reports `CorruptInputError` for those). -/
def b64Index (c : Char) : Option Nat := b64IndexAux c base64Alphabet 0

/-- Unpadded base64 encoding of a byte list (Go
`base64.RawStdEncoding.EncodeToString`): 3 bytes → 4 characters, a trailing
byte → 2 characters, two trailing bytes → 3 characters, no padding. -/
def b64Encode : List Nat → List Char
  | [] => []
  | [b0] => [b64Chr (b0 / 4), b64Chr (b0 % 4 * 16)]
  | [b0, b1] => [b64Chr (b0 / 4), b64Chr (b0 % 4 * 16 + b1 / 16), b64Chr (b1 % 16 * 4)]
  | b0 :: b1 :: b2 :: rest =>
      b64Chr (b0 / 4) :: b64Chr (b0 % 4 * 16 + b1 / 16) ::
      b64Chr (b1 % 16 * 4 + b2 / 64) :: b64Chr (b2 % 64) :: b64Encode rest

/-- The 4-character-group decoding underneath Go `base64`, after the decoder
has skipped line breaks: fails on characters outside the alphabet and on a
remaining length `≡ 1 (mod 4)`; trailing bits of a final partial group are
discarded (non-strict mode). -/
def b64DecodeCore : List Char → Option (List Nat)
  | [] => some []
  | [_] => none
  | [c0, c1] =>
      match b64Index c0, b64Index c1 with
      | some s0, some s1 => some [s0 * 4 + s1 / 16]
      | _, _ => none
  | [c0, c1, c2] =>
      match b64Index c0, b64Index c1, b64Index c2 with
      | some s0, some s1, some s2 =>
          some [s0 * 4 + s1 / 16, s1 % 16 * 16 + s2 / 4]
      | _, _, _ => none
  | c0 :: c1 :: c2 :: c3 :: rest =>
      match b64Index c0, b64Index c1, b64Index c2, b64Index c3, b64DecodeCore rest with
      | some s0, some s1, some s2, some s3, some tail =>
          some ((s0 * 4 + s1 / 16) :: (s1 % 16 * 16 + s2 / 4) :: (s2 % 4 * 64 + s3) :: tail)
      | _, _, _, _, _ => none

/-- Unpadded base64 decoding (Go `base64.RawStdEncoding.DecodeString`): the
decoder ignores `'\r'` and `'\n'` anywhere in its input, then decodes the
remaining characters in 4-character groups. -/
def b64Decode (s : List Char) : Option (List Nat) :=
  b64DecodeCore (s.filter fun c => !(c == '\r' || c == '\n'))

/-! ## Strings: splitting and integer scanning -/

/-- Go `strings.Split(s, ":")` on a `List Char` string: always returns at
least one field; `n` separators give `n+1` fields. -/
def splitOnColon : List Char → List (List Char)
  | [] => [[]]
  | c :: rest =>
      if c = ':' then [] :: splitOnColon rest
      else
        match splitOnColon rest with
        | [] => [[c]]
        | f :: fs => (c :: f) :: fs

/-- Value of a digit character in the given base, `none` if it is not a valid
digit for that base (Go `fmt`'s scanner accepts `0-9`, `a-f`, `A-F`). -/
def digitVal (base : Nat) (c : Char) : Option Nat :=
  let v :=
    if '0' ≤ c ∧ c ≤ '9' then some (c.toNat - 48)
    else if 'a' ≤ c ∧ c ≤ 'f' then some (c.toNat - 87)
    else if 'A' ≤ c ∧ c ≤ 'F' then some (c.toNat - 55)
    else none
  match v with
  | some d => if d < base then some d else none
  | none => none

/-- The fmt scanner's white-space table (`space` in fmt/scan.go):
`0x09`–`0x0D`, `0x20`, `0x85`, `0xA0`, `0x1680`, `0x2000`–`0x200A`,
`0x2028`, `0x2029`, `0x202F`, `0x205F`, `0x3000`.  `Sscan` treats newlines
as space, so `SkipSpace` skips all of these. -/
def goScanSpace (c : Char) : Bool :=
  let n := c.toNat
  (9 ≤ n && n ≤ 13) || n == 32 || n == 133 || n == 160 || n == 5760 ||
  (8192 ≤ n && n ≤ 8202) || n == 8232 || n == 8233 || n == 8239 ||
  n == 8287 || n == 12288

/-- Greedily take the characters of the given base's digit class, with the
`'_'` separator included (fmt's digit strings all end in `"_"`), stopping at
the first other character; the scanner leaves the rest unconsumed. -/
def takeScanDigits (base : Nat) : List Char → List Char
  | [] => []
  | c :: rest =>
      if (digitVal base c).isSome ∨ c = '_' then c :: takeScanDigits base rest
      else []

/-- strconv's `underscoreOK` restricted to the scanned digit characters:
every `'_'` must directly follow a digit (or the base prefix, when
`prevDigit` starts `true`) and be directly followed by a digit. -/
def underscoresOK (prevDigit : Bool) : List Char → Bool
  | [] => true
  | c :: rest =>
      if c = '_' then prevDigit && !rest.isEmpty && underscoresOK false rest
      else underscoresOK true rest

/-- Accumulate the value of the scanned digit characters in the given base,
skipping the `'_'` separators, as strconv's digit loop does. -/
def digitsValue (base acc : Nat) : List Char → Nat
  | [] => acc
  | c :: rest =>
      match digitVal base c with
      | some d => digitsValue base (acc * base + d) rest
      | none => digitsValue base acc rest

/-- Attach the sign and apply `strconv.ParseInt`'s 64-bit range check
(`-2^63 ≤ n ≤ 2^63 - 1`); a misplaced underscore (`ok = false`) is a syntax
error, an out-of-range value a range error — fmt reports both as the scan
error `parseInt` returns. -/
def finishInt (neg ok : Bool) (m : Nat) : Except Unit Int :=
  if !ok then .error ()
  else if neg then
    if m ≤ 9223372036854775808 then .ok (-(m : Int)) else .error ()
  else
    if m ≤ 9223372036854775807 then .ok (m : Int) else .error ()

/-- A `0b`/`0o`/`0x` base prefix followed by the scanned digit characters:
with no digit characters at all the token is just the prefix, which
`strconv.ParseInt(tok, 0, 64)` rejects (e.g. `"0x"` re-parses as a bare
zero followed by the letter `x` — a syntax error). -/
def parsePrefixed (neg : Bool) (base : Nat) (ds : List Char) : Except Unit Int :=
  if ds.isEmpty then .error ()
  else finishInt neg (underscoresOK true ds) (digitsValue base 0 ds)

/-- The magnitude part of the scan, after the optional sign: a leading `0`
selects a `0b`/`0o`/`0x` base or bare-zero octal (the `0` itself already a
found digit), otherwise at least one decimal-class character is required
(`"expected integer"` otherwise). -/
def parseIntMag (neg : Bool) : List Char → Except Unit Int
  | '0' :: 'b' :: rest => parsePrefixed neg 2 (takeScanDigits 2 rest)
  | '0' :: 'B' :: rest => parsePrefixed neg 2 (takeScanDigits 2 rest)
  | '0' :: 'o' :: rest => parsePrefixed neg 8 (takeScanDigits 8 rest)
  | '0' :: 'O' :: rest => parsePrefixed neg 8 (takeScanDigits 8 rest)
  | '0' :: 'x' :: rest => parsePrefixed neg 16 (takeScanDigits 16 rest)
  | '0' :: 'X' :: rest => parsePrefixed neg 16 (takeScanDigits 16 rest)
  | '0' :: rest =>
      finishInt neg (underscoresOK true (takeScanDigits 8 rest))
        (digitsValue 8 0 (takeScanDigits 8 rest))
  | s =>
      match takeScanDigits 10 s with
      | [] => .error ()
      | ds => finishInt neg (underscoresOK false ds) (digitsValue 10 0 ds)

/-- `parseInt` from `password.go`: `fmt.Sscan(s, &n)` scanning one `int` —
skip the scanner's white space (newlines included, as `Sscan` treats them as
space), accept an optional sign, scan a base-prefixed or decimal digit token
greedily, then apply `strconv.ParseInt(token, 0, 64)`: digit-less base
prefixes and misplaced `'_'` separators are syntax errors, out-of-int64
values range errors.  The sign of the result is NOT checked anywhere. -/
def parseIntGo (s : List Char) : Except Unit Int :=
  let s1 := s.dropWhile goScanSpace
  match s1 with
  | '-' :: rest => parseIntMag true rest
  | '+' :: rest => parseIntMag false rest
  | rest => parseIntMag false rest

/-! ## The password utility (`internal/util/password.go`) -/

/-- The error values `HashPassword` and `CheckPasswordHash` can return,
one constructor per distinct `return ..., err` site in `password.go`. -/
inductive PwErr where
  /-- `errors.New("password cannot be empty")` in `HashPassword`. -/
  | emptyPassword
  /-- `errors.New("password and stored hash cannot be empty")`. -/
  | emptyInput
  /-- `ErrInvalidHashFormat` ("invalid hash format"). -/
  | invalidHashFormat
  /-- `ErrIncompatibleAlgorithm` ("incompatible algorithm"). -/
  | incompatibleAlgorithm
  /-- the wrapped "failed to parse iterations" error. -/
  | parseIterations
  /-- the wrapped "failed to decode salt" error. -/
  | decodeSalt
  /-- the wrapped "failed to decode hash" error. -/
  | decodeHash
deriving DecidableEq, Repr

/-- `passwordSaltBytes`. -/
def passwordSaltBytes : Nat := 16

/-- `passwordHashBytes`. -/
def passwordHashBytes : Nat := 32

/-- `passwordIterations`. -/
def passwordIterations : Nat := 1000000

/-- `passwordAlgorithmKey`. -/
def passwordAlgorithmKey : List Char := "pbkdf2-sha256".toList

/-- `[]byte(s)` for the ASCII strings this code handles (code points as
byte values; all inputs exercised here are ASCII, where this equals UTF-8). -/
def strBytes (s : List Char) : List Nat := s.map Char.toNat

/-- `fmt.Sprintf("%d", n)` for a natural number, as a character list. -/
def natChars (n : Nat) : List Char := (toString n).toList

/-- `HashPassword(password)` from `password.go`.  The 16 random salt bytes
`crypto/rand` supplies are passed explicitly as `salt` (two-run properties
about the random source quantify over this argument); the unread-entropy
error branch is not modelled.  Returns
`"pbkdf2-sha256:1000000:" + base64(salt) + ":" + base64(derived key)`. -/
def HashPassword (password : List Char) (salt : List Nat) : Except PwErr (List Char) :=
  if password = [] then .error .emptyPassword
  else
    let hash := pbkdf2Key (strBytes password) salt (passwordIterations : Int) passwordHashBytes
    let b64Salt := b64Encode salt
    let b64Hash := b64Encode hash
    .ok (passwordAlgorithmKey ++ ':' :: natChars passwordIterations ++ ':' :: b64Salt ++ ':' :: b64Hash)

/-- `CheckPasswordHash(password, storedHash)` from `password.go`: reject empty
inputs, split on `":"` into exactly four fields, check the algorithm, scan
the iteration count, base64-decode salt and digest, re-derive a key of the
decoded digest's length and compare in constant time. -/
def CheckPasswordHash (password storedHash : List Char) : Except PwErr Bool :=
  if password = [] ∨ storedHash = [] then .error .emptyInput
  else
    let part := splitOnColon storedHash
    if part.length ≠ 4 then .error .invalidHashFormat
    else
      let algorithm := part.getD 0 []
      if algorithm ≠ passwordAlgorithmKey then .error .incompatibleAlgorithm
      else
        match parseIntGo (part.getD 1 []) with
        | .error _ => .error .parseIterations
        | .ok iterations =>
          match b64Decode (part.getD 2 []) with
          | none => .error .decodeSalt
          | some salt =>
            match b64Decode (part.getD 3 []) with
            | none => .error .decodeHash
            | some hash =>
              let comparisonHash := pbkdf2Key (strBytes password) salt iterations hash.length
              if constantTimeCompare hash comparisonHash = 1 then .ok true
              else .ok false

/-! ## `UpdateUser` (`internal/repository/user.go`) -/

/-- `pgtype.Text`: a nullable SQL text value (`Valid = false` is NULL). -/
structure PgText where
  String : List Char
  Valid : Bool
deriving DecidableEq, Repr

/-- `sqlc.UpdateUserParams`, generated from the `UpdateUser` query in
`db/queries/user.sql`: an `id` plus four `sqlc.narg` nullable text columns. -/
structure UpdateUserParams where
  ID : Int
  FirstName : PgText
  LastName : PgText
  Email : PgText
  HashedPassword : PgText
deriving DecidableEq, Repr

/-- The argument transformation `DBUserRepository.UpdateUser` performs before
forwarding `arg` to the generated query (`d.db.UpdateUser(ctx, arg)`): a
present non-empty password is replaced by its fresh hash (salt passed
explicitly, as in `HashPassword`); an absent password (`Valid == false`) hits
the empty branch and is forwarded untouched; a present empty password has its
`Valid` flag cleared.  The result is the forwarded parameter struct. -/
def updateUserArg (arg : UpdateUserParams) (salt : List Nat) : Except PwErr UpdateUserParams :=
  if arg.HashedPassword.Valid ∧ arg.HashedPassword.String ≠ [] then
    match HashPassword arg.HashedPassword.String salt with
    | .error e => .error e
    | .ok newHashedPassword =>
        .ok { arg with HashedPassword := ⟨newHashedPassword, true⟩ }
  else
    if ¬ arg.HashedPassword.Valid then .ok arg
    else if arg.HashedPassword.String = [] then
      .ok { arg with HashedPassword := { arg.HashedPassword with Valid := false } }
    else .ok arg

/-! ## Basic byte-level lemmas -/

theorem xor_lt_256 {a b : Nat} (ha : a < 256) (hb : b < 256) : a ^^^ b < 256 := by
  have h8 : (256 : Nat) = 2 ^ 8 := by norm_num
  rw [h8] at ha hb ⊢
  exact Nat.xor_lt_two_pow ha hb

theorem or_lt_256 {a b : Nat} (ha : a < 256) (hb : b < 256) : a ||| b < 256 := by
  have h8 : (256 : Nat) = 2 ^ 8 := by norm_num
  rw [h8] at ha hb ⊢
  exact Nat.or_lt_two_pow ha hb

theorem or_eq_zero {a b : Nat} (h : a ||| b = 0) : a = 0 ∧ b = 0 := by
  constructor <;>
  · apply Nat.eq_of_testBit_eq
    intro i
    have h2 := congrArg (fun n => Nat.testBit n i) h
    simp only [Nat.testBit_or, Nat.zero_testBit, Bool.or_eq_false_iff] at h2
    simp [Nat.zero_testBit, h2.1, h2.2]

theorem beBytes4_mem_lt (x : Nat) : ∀ b ∈ beBytes4 x, b < 256 := by
  intro b hb
  simp only [beBytes4, List.mem_cons, List.not_mem_nil, or_false] at hb
  rcases hb with rfl | rfl | rfl | rfl <;> exact Nat.mod_lt _ (by decide)

theorem sha256Final_length (s : Sha256State) : (sha256Final s).length = 32 := by
  simp [sha256Final, beBytes4]

theorem sha256Final_mem_lt (s : Sha256State) : ∀ b ∈ sha256Final s, b < 256 := by
  intro b hb
  simp only [sha256Final, List.mem_append] at hb
  rcases hb with ((((((h | h) | h) | h) | h) | h) | h) | h <;> exact beBytes4_mem_lt _ b h

theorem sha256_length (m : List Nat) : (sha256 m).length = 32 := sha256Final_length _

theorem sha256_mem_lt (m : List Nat) : ∀ b ∈ sha256 m, b < 256 := sha256Final_mem_lt _

theorem hmacSha256_length (key msg : List Nat) : (hmacSha256 key msg).length = 32 := by
  unfold hmacSha256
  exact sha256_length _

theorem hmacSha256_mem_lt (key msg : List Nat) : ∀ b ∈ hmacSha256 key msg, b < 256 := by
  unfold hmacSha256
  exact sha256_mem_lt _

theorem zipWith_xor_length {t u : List Nat} (ht : t.length = 32) (hu : u.length = 32) :
    (List.zipWith (· ^^^ ·) t u).length = 32 := by
  rw [List.length_zipWith, ht, hu]
  decide

theorem zipWith_xor_mem_lt :
    ∀ (t u : List Nat), (∀ b ∈ t, b < 256) → (∀ b ∈ u, b < 256) →
      ∀ b ∈ List.zipWith (· ^^^ ·) t u, b < 256
  | [], _, _, _ => by simp
  | _ :: _, [], _, _ => by simp
  | a :: t, c :: u, ht, hu => by
      intro b hb
      simp only [List.zipWith_cons_cons, List.mem_cons] at hb
      rcases hb with rfl | hb
      · exact xor_lt_256 (ht a (by simp)) (hu c (by simp))
      · exact zipWith_xor_mem_lt t u (fun x hx => ht x (by simp [hx]))
          (fun x hx => hu x (by simp [hx])) b hb

theorem pbkdf2Inner_length (pw : List Nat) :
    ∀ (n : Nat) (t u : List Nat), t.length = 32 → (pbkdf2Inner pw n t u).length = 32
  | 0, _, _, h => h
  | n + 1, t, u, h => by
      simp only [pbkdf2Inner]
      exact pbkdf2Inner_length pw n _ _ (zipWith_xor_length h (hmacSha256_length pw u))

theorem pbkdf2Inner_mem_lt (pw : List Nat) :
    ∀ (n : Nat) (t u : List Nat), (∀ b ∈ t, b < 256) → ∀ b ∈ pbkdf2Inner pw n t u, b < 256
  | 0, _, _, h => h
  | n + 1, t, u, h => by
      simp only [pbkdf2Inner]
      exact pbkdf2Inner_mem_lt pw n _ _
        (zipWith_xor_mem_lt t _ h (hmacSha256_mem_lt pw u))

theorem pbkdf2Block_length (pw salt : List Nat) (iter : Int) (i : Nat) :
    (pbkdf2Block pw salt iter i).length = 32 := by
  unfold pbkdf2Block
  exact pbkdf2Inner_length pw _ _ _ (hmacSha256_length pw _)

theorem pbkdf2Block_mem_lt (pw salt : List Nat) (iter : Int) (i : Nat) :
    ∀ b ∈ pbkdf2Block pw salt iter i, b < 256 := by
  unfold pbkdf2Block
  exact pbkdf2Inner_mem_lt pw _ _ _ (hmacSha256_mem_lt pw _)

theorem pbkdf2Key_length (pw salt : List Nat) (iter : Int) (klen : Nat) :
    (pbkdf2Key pw salt iter klen).length = klen := by
  unfold pbkdf2Key
  rw [List.length_take, List.length_flatten, List.map_map]
  have hmem : ∀ x ∈ (List.range ((klen + 31) / 32)).map
      (List.length ∘ fun i => pbkdf2Block pw salt iter (i + 1)), x = 32 := by
    intro x hx
    simp only [List.mem_map, Function.comp] at hx
    obtain ⟨i, _, rfl⟩ := hx
    exact pbkdf2Block_length pw salt iter (i + 1)
  rw [List.eq_replicate_of_mem hmem, List.sum_replicate, List.length_map,
    List.length_range, smul_eq_mul]
  omega

theorem pbkdf2Key_mem_lt (pw salt : List Nat) (iter : Int) (klen : Nat) :
    ∀ b ∈ pbkdf2Key pw salt iter klen, b < 256 := by
  intro b hb
  unfold pbkdf2Key at hb
  have hb2 := List.mem_of_mem_take hb
  rw [List.mem_flatten] at hb2
  obtain ⟨l, hl, hbl⟩ := hb2
  simp only [List.mem_map] at hl
  obtain ⟨i, _, rfl⟩ := hl
  exact pbkdf2Block_mem_lt pw salt iter (i + 1) b hbl

/-! ## Constant-time comparison lemmas -/

theorem foldl_or_eq_zero_iff :
    ∀ (l : List (Nat × Nat)) (v : Nat),
      l.foldl (fun v p => v ||| (p.1 ^^^ p.2)) v = 0 ↔ v = 0 ∧ ∀ p ∈ l, p.1 = p.2
  | [], v => by simp
  | p :: l, v => by
      simp only [List.foldl_cons]
      rw [foldl_or_eq_zero_iff l]
      constructor
      · rintro ⟨hvor, hall⟩
        obtain ⟨hv, hx⟩ := or_eq_zero hvor
        refine ⟨hv, ?_⟩
        intro q hq
        rcases List.mem_cons.mp hq with rfl | hq
        · exact Nat.xor_eq_zero.mp hx
        · exact hall q hq
      · rintro ⟨rfl, hall⟩
        have hx : p.1 ^^^ p.2 = 0 := Nat.xor_eq_zero.mpr (hall p (by simp))
        refine ⟨by simp [hx], ?_⟩
        intro q hq
        exact hall q (by simp [hq])

theorem foldl_or_lt_256 :
    ∀ (l : List (Nat × Nat)) (v : Nat), v < 256 → (∀ p ∈ l, p.1 ^^^ p.2 < 256) →
      l.foldl (fun v p => v ||| (p.1 ^^^ p.2)) v < 256
  | [], v, hv, _ => hv
  | p :: l, v, hv, hl => by
      simp only [List.foldl_cons]
      exact foldl_or_lt_256 l _ (or_lt_256 hv (hl p (by simp)))
        fun q hq => hl q (by simp [hq])

theorem zip_pairs_eq_iff :
    ∀ (x y : List Nat), x.length = y.length → ((∀ p ∈ x.zip y, p.1 = p.2) ↔ x = y)
  | [], [], _ => by simp
  | [], _ :: _, h => by simp at h
  | _ :: _, [], h => by simp at h
  | a :: x, b :: y, h => by
      simp only [List.length_cons, Nat.add_right_cancel_iff] at h
      simp only [List.zip_cons_cons, List.mem_cons, List.cons.injEq]
      rw [← zip_pairs_eq_iff x y h]
      constructor
      · intro hall
        exact ⟨hall (a, b) (Or.inl rfl), fun q hq => hall q (Or.inr hq)⟩
      · rintro ⟨rfl, hall⟩ q hq
        rcases hq with rfl | hq
        · rfl
        · exact hall q hq

theorem constantTimeByteEq_self_zero : constantTimeByteEq 0 0 = 1 := by decide

theorem constantTimeByteEq_pos {r : Nat} (h0 : r ≠ 0) (h256 : r < 256) :
    constantTimeByteEq r 0 = 0 := by
  unfold constantTimeByteEq
  rw [Nat.xor_zero, Nat.shiftRight_eq_div_pow]
  omega

/-- For byte lists, the Go constant-time comparison returns 1 exactly on
equal lists (differing lengths included: they give 0). -/
theorem constantTimeCompare_eq_one_iff (x y : List Nat)
    (hx : ∀ b ∈ x, b < 256) (hy : ∀ b ∈ y, b < 256) :
    (constantTimeCompare x y = 1 ↔ x = y) := by
  unfold constantTimeCompare
  by_cases h : x.length = y.length
  · rw [if_pos h]
    have hpair : ∀ p ∈ x.zip y, p.1 ^^^ p.2 < 256 := by
      intro p hp
      obtain ⟨h1, h2⟩ := List.of_mem_zip hp
      exact xor_lt_256 (hx _ h1) (hy _ h2)
    constructor
    · intro h1
      by_contra hne
      have hv : (x.zip y).foldl (fun v p => v ||| (p.1 ^^^ p.2)) 0 ≠ 0 := by
        intro hv0
        exact hne ((zip_pairs_eq_iff x y h).mp ((foldl_or_eq_zero_iff _ _).mp hv0).2)
      rw [constantTimeByteEq_pos hv (foldl_or_lt_256 _ 0 (by decide) hpair)] at h1
      exact absurd h1 (by decide)
    · intro hxy
      have hv0 : (x.zip y).foldl (fun v p => v ||| (p.1 ^^^ p.2)) 0 = 0 :=
        (foldl_or_eq_zero_iff _ _).mpr ⟨rfl, (zip_pairs_eq_iff x y h).mpr hxy⟩
      rw [hv0]
      exact constantTimeByteEq_self_zero
  · rw [if_neg h]
    constructor
    · intro h01
      exact absurd h01 (by decide)
    · intro hxy
      exact absurd (congrArg List.length hxy) h

theorem foldl_instr_spec :
    ∀ (l : List (Nat × Nat)) (v c : Nat),
      l.foldl (fun acc p => (acc.1 ||| (p.1 ^^^ p.2), acc.2 + 1)) (v, c) =
        (l.foldl (fun v p => v ||| (p.1 ^^^ p.2)) v, c + l.length)
  | [], v, c => by simp
  | p :: l, v, c => by
      simp only [List.foldl_cons, foldl_instr_spec l, List.length_cons]
      congr 1
      omega

/-! ## Base64 lemmas -/

theorem b64Index_b64Chr : ∀ s : Nat, s < 64 → b64Index (b64Chr s) = some s := by decide

theorem b64Chr_ne_colon (s : Nat) : b64Chr s ≠ ':' := by
  by_cases h : s < 64
  · exact (by decide : ∀ t : Nat, t < 64 → b64Chr t ≠ ':') s h
  · unfold b64Chr
    have hl : base64Alphabet.length ≤ s := by
      have h64 : base64Alphabet.length = 64 := rfl
      omega
    rw [List.getD_eq_default _ _ hl]
    decide

theorem colon_not_mem_b64Encode : ∀ l : List Nat, ':' ∉ b64Encode l
  | [] => by simp [b64Encode]
  | [b0] => by
      simp only [b64Encode, List.mem_cons, List.not_mem_nil, or_false]
      rintro (h | h) <;> exact b64Chr_ne_colon _ h.symm
  | [b0, b1] => by
      simp only [b64Encode, List.mem_cons, List.not_mem_nil, or_false]
      rintro (h | h | h) <;> exact b64Chr_ne_colon _ h.symm
  | b0 :: b1 :: b2 :: rest => by
      simp only [b64Encode, List.mem_cons]
      rintro (h | h | h | h | h)
      · exact b64Chr_ne_colon _ h.symm
      · exact b64Chr_ne_colon _ h.symm
      · exact b64Chr_ne_colon _ h.symm
      · exact b64Chr_ne_colon _ h.symm
      · exact colon_not_mem_b64Encode rest h

theorem b64Encode_length : ∀ l : List Nat, (b64Encode l).length = (l.length * 4 + 2) / 3
  | [] => rfl
  | [_] => by simp [b64Encode]
  | [_, _] => by simp [b64Encode]
  | _ :: _ :: _ :: rest => by
      simp only [b64Encode, List.length_cons, b64Encode_length rest]
      omega

theorem b64DecodeCore_b64Encode :
    ∀ l : List Nat, (∀ b ∈ l, b < 256) → b64DecodeCore (b64Encode l) = some l
  | [], _ => rfl
  | [b0], h => by
      have hb0 : b0 < 256 := h b0 (by simp)
      simp only [b64Encode, b64DecodeCore,
        b64Index_b64Chr _ (by omega : b0 / 4 < 64),
        b64Index_b64Chr _ (by omega : b0 % 4 * 16 < 64),
        Option.some.injEq, List.cons.injEq, and_true]
      omega
  | [b0, b1], h => by
      have hb0 : b0 < 256 := h b0 (by simp)
      have hb1 : b1 < 256 := h b1 (by simp)
      simp only [b64Encode, b64DecodeCore,
        b64Index_b64Chr _ (by omega : b0 / 4 < 64),
        b64Index_b64Chr _ (by omega : b0 % 4 * 16 + b1 / 16 < 64),
        b64Index_b64Chr _ (by omega : b1 % 16 * 4 < 64),
        Option.some.injEq, List.cons.injEq, and_true]
      constructor <;> omega
  | b0 :: b1 :: b2 :: rest, h => by
      have hb0 : b0 < 256 := h b0 (by simp)
      have hb1 : b1 < 256 := h b1 (by simp)
      have hb2 : b2 < 256 := h b2 (by simp)
      have ih := b64DecodeCore_b64Encode rest fun b hb => h b (by simp [hb])
      simp only [b64Encode, b64DecodeCore,
        b64Index_b64Chr _ (by omega : b0 / 4 < 64),
        b64Index_b64Chr _ (by omega : b0 % 4 * 16 + b1 / 16 < 64),
        b64Index_b64Chr _ (by omega : b1 % 16 * 4 + b2 / 64 < 64),
        b64Index_b64Chr _ (by omega : b2 % 64 < 64), ih,
        Option.some.injEq, List.cons.injEq, and_true]
      refine ⟨by omega, by omega, by omega⟩

theorem b64Chr_mem_alphabet (s : Nat) : b64Chr s ∈ base64Alphabet := by
  by_cases h : s < 64
  · exact (by decide : ∀ t : Nat, t < 64 → b64Chr t ∈ base64Alphabet) s h
  · unfold b64Chr
    have hl : base64Alphabet.length ≤ s := by
      have h64 : base64Alphabet.length = 64 := rfl
      omega
    rw [List.getD_eq_default _ _ hl]
    decide

theorem b64Encode_mem_alphabet :
    ∀ (l : List Nat) (c : Char), c ∈ b64Encode l → c ∈ base64Alphabet
  | [], _, h => by simp [b64Encode] at h
  | [b0], c, h => by
      simp only [b64Encode, List.mem_cons, List.not_mem_nil, or_false] at h
      rcases h with rfl | rfl <;> exact b64Chr_mem_alphabet _
  | [b0, b1], c, h => by
      simp only [b64Encode, List.mem_cons, List.not_mem_nil, or_false] at h
      rcases h with rfl | rfl | rfl <;> exact b64Chr_mem_alphabet _
  | b0 :: b1 :: b2 :: rest, c, h => by
      simp only [b64Encode, List.mem_cons] at h
      rcases h with rfl | rfl | rfl | rfl | h
      · exact b64Chr_mem_alphabet _
      · exact b64Chr_mem_alphabet _
      · exact b64Chr_mem_alphabet _
      · exact b64Chr_mem_alphabet _
      · exact b64Encode_mem_alphabet rest c h

/-- The decoder's line-break skip does not touch an encoder output: the
alphabet contains no `'\r'` or `'\n'`. -/
theorem b64Encode_filter_crlf (l : List Nat) :
    (b64Encode l).filter (fun c => !(c == '\r' || c == '\n')) = b64Encode l := by
  apply List.filter_eq_self.mpr
  intro c hc
  exact (by decide : ∀ x ∈ base64Alphabet, (!(x == '\r' || x == '\n')) = true) c
    (b64Encode_mem_alphabet l c hc)

theorem b64Decode_b64Encode (l : List Nat) (h : ∀ b ∈ l, b < 256) :
    b64Decode (b64Encode l) = some l := by
  unfold b64Decode
  rw [b64Encode_filter_crlf]
  exact b64DecodeCore_b64Encode l h

theorem b64Encode_inj {l1 l2 : List Nat}
    (h1 : ∀ b ∈ l1, b < 256) (h2 : ∀ b ∈ l2, b < 256)
    (he : b64Encode l1 = b64Encode l2) : l1 = l2 := by
  have hr := b64Decode_b64Encode l1 h1
  rw [he, b64Decode_b64Encode l2 h2] at hr
  exact (Option.some.inj hr).symm

theorem b64IndexAux_lt (c : Char) :
    ∀ (cs : List Char) (n m : Nat), b64IndexAux c cs n = some m → m < n + cs.length
  | [], n, m, h => by simp [b64IndexAux] at h
  | a :: cs, n, m, h => by
      simp only [b64IndexAux] at h
      by_cases ha : a = c
      · rw [if_pos ha] at h
        injection h with h
        simp only [List.length_cons]
        omega
      · rw [if_neg ha] at h
        have := b64IndexAux_lt c cs (n + 1) m h
        simp only [List.length_cons]
        omega

theorem b64Index_lt {c : Char} {m : Nat} (h : b64Index c = some m) : m < 64 := by
  have h2 := b64IndexAux_lt c base64Alphabet 0 m h
  have h64 : base64Alphabet.length = 64 := rfl
  omega

theorem b64DecodeCore_mem_lt :
    ∀ (s : List Char) (l : List Nat), b64DecodeCore s = some l → ∀ b ∈ l, b < 256
  | [], l, h => by
      simp only [b64DecodeCore, Option.some.injEq] at h
      subst h
      intro b hb
      simp at hb
  | [_], l, h => by simp [b64DecodeCore] at h
  | [c0, c1], l, h => by
      simp only [b64DecodeCore] at h
      cases h0 : b64Index c0 with
      | none => rw [h0] at h; simp at h
      | some s0 =>
        cases h1 : b64Index c1 with
        | none => rw [h0, h1] at h; simp at h
        | some s1 =>
          rw [h0, h1] at h
          simp only [Option.some.injEq] at h
          subst h
          have hs0 := b64Index_lt h0
          have hs1 := b64Index_lt h1
          intro b hb
          simp only [List.mem_cons, List.not_mem_nil, or_false] at hb
          subst hb
          omega
  | [c0, c1, c2], l, h => by
      simp only [b64DecodeCore] at h
      cases h0 : b64Index c0 with
      | none => rw [h0] at h; simp at h
      | some s0 =>
        cases h1 : b64Index c1 with
        | none => rw [h0, h1] at h; simp at h
        | some s1 =>
          cases h2 : b64Index c2 with
          | none => rw [h0, h1, h2] at h; simp at h
          | some s2 =>
            rw [h0, h1, h2] at h
            simp only [Option.some.injEq] at h
            subst h
            have hs0 := b64Index_lt h0
            have hs1 := b64Index_lt h1
            have hs2 := b64Index_lt h2
            intro b hb
            simp only [List.mem_cons, List.not_mem_nil, or_false] at hb
            rcases hb with rfl | rfl <;> omega
  | c0 :: c1 :: c2 :: c3 :: rest, l, h => by
      simp only [b64DecodeCore] at h
      cases h0 : b64Index c0 with
      | none => rw [h0] at h; simp at h
      | some s0 =>
        cases h1 : b64Index c1 with
        | none => rw [h0, h1] at h; simp at h
        | some s1 =>
          cases h2 : b64Index c2 with
          | none => rw [h0, h1, h2] at h; simp at h
          | some s2 =>
            cases h3 : b64Index c3 with
            | none => rw [h0, h1, h2, h3] at h; simp at h
            | some s3 =>
              cases htail : b64DecodeCore rest with
              | none => rw [h0, h1, h2, h3, htail] at h; simp at h
              | some tail =>
                rw [h0, h1, h2, h3, htail] at h
                simp only [Option.some.injEq] at h
                subst h
                have hs0 := b64Index_lt h0
                have hs1 := b64Index_lt h1
                have hs2 := b64Index_lt h2
                have hs3 := b64Index_lt h3
                intro b hb
                simp only [List.mem_cons] at hb
                rcases hb with rfl | rfl | rfl | hb
                · omega
                · omega
                · omega
                · exact b64DecodeCore_mem_lt rest tail htail b hb

theorem b64Decode_mem_lt (s : List Char) (l : List Nat)
    (h : b64Decode s = some l) : ∀ b ∈ l, b < 256 := by
  unfold b64Decode at h
  exact b64DecodeCore_mem_lt _ l h

/-! ## Splitting lemmas -/

theorem splitOnColon_no_colon : ∀ s : List Char, ':' ∉ s → splitOnColon s = [s]
  | [], _ => rfl
  | c :: rest, h => by
      have hc : ¬(c = ':') := fun hc => h (by simp [hc])
      have hr := splitOnColon_no_colon rest fun hm => h (by simp [hm])
      simp only [splitOnColon, if_neg hc, hr]

theorem splitOnColon_append :
    ∀ (xs ys : List Char), ':' ∉ xs →
      splitOnColon (xs ++ ':' :: ys) = xs :: splitOnColon ys
  | [], ys, _ => by simp [splitOnColon]
  | c :: xs, ys, h => by
      have hc : ¬(c = ':') := fun hc => h (by simp [hc])
      have hr := splitOnColon_append xs ys fun hm => h (by simp [hm])
      simp only [List.cons_append, splitOnColon, if_neg hc, List.append_eq, hr]

/-! ## Structure lemmas for `HashPassword` and `CheckPasswordHash` -/

theorem hashPassword_eq (p : List Char) (salt : List Nat) (hp : p ≠ []) :
    HashPassword p salt =
      .ok (passwordAlgorithmKey ++ ':' :: natChars passwordIterations ++
        ':' :: b64Encode salt ++
        ':' :: b64Encode (pbkdf2Key (strBytes p) salt (passwordIterations : Int) passwordHashBytes)) := by
  unfold HashPassword
  rw [if_neg hp]

theorem splitOnColon_encoded (salt key : List Nat) :
    splitOnColon (passwordAlgorithmKey ++ ':' :: natChars passwordIterations ++
        ':' :: b64Encode salt ++ ':' :: b64Encode key) =
      [passwordAlgorithmKey, natChars passwordIterations, b64Encode salt, b64Encode key] := by
  simp only [List.append_assoc, List.cons_append]
  rw [splitOnColon_append passwordAlgorithmKey _ (by decide),
    splitOnColon_append (natChars passwordIterations) _ (by decide),
    splitOnColon_append (b64Encode salt) _ (colon_not_mem_b64Encode salt),
    splitOnColon_no_colon _ (colon_not_mem_b64Encode key)]

theorem if_compare_ok (c : Prop) [Decidable c] :
    (if c then (Except.ok true : Except PwErr Bool) else .ok false) = .ok (decide c) := by
  by_cases h : c <;> simp [h]

theorem checkPasswordHash_parsed (p sh : List Char) (iters saltF digF : List Char)
    (hp : p ≠ [])
    (hsplit : splitOnColon sh = [passwordAlgorithmKey, iters, saltF, digF])
    (it : Int) (hit : parseIntGo iters = .ok it)
    (salt hash : List Nat) (hs : b64Decode saltF = some salt)
    (hh : b64Decode digF = some hash) :
    CheckPasswordHash p sh =
      .ok (decide (constantTimeCompare hash
        (pbkdf2Key (strBytes p) salt it hash.length) = 1)) := by
  have hshne : sh ≠ [] := by
    intro h
    rw [h] at hsplit
    simp [splitOnColon] at hsplit
  unfold CheckPasswordHash
  rw [if_neg (by simp [hp, hshne])]
  simp only [hsplit]
  rw [if_neg (by simp)]
  rw [if_neg (by simp [List.getD])]
  rw [show ([passwordAlgorithmKey, iters, saltF, digF]).getD 1 ([] : List Char) = iters from rfl,
    hit,
    show ([passwordAlgorithmKey, iters, saltF, digF]).getD 2 ([] : List Char) = saltF from rfl,
    hs,
    show ([passwordAlgorithmKey, iters, saltF, digF]).getD 3 ([] : List Char) = digF from rfl,
    hh]
  exact if_compare_ok _

theorem ne_nil_of_split_four {sh a b c d : List Char}
    (h : splitOnColon sh = [a, b, c, d]) : sh ≠ [] := by
  intro hn
  rw [hn] at h
  simp [splitOnColon] at h

theorem parseIntGo_iterations :
    parseIntGo (natChars passwordIterations) = .ok ((passwordIterations : Nat) : Int) := by
  decide

/-- Round trip: verifying the exact string `HashPassword` produces, with the
same password, succeeds (any salt bytes). -/
theorem check_of_hash_aux (p : List Char) (salt : List Nat) (hp : p ≠ [])
    (hb : ∀ b ∈ salt, b < 256) :
    CheckPasswordHash p
      (passwordAlgorithmKey ++ ':' :: natChars passwordIterations ++
        ':' :: b64Encode salt ++
        ':' :: b64Encode (pbkdf2Key (strBytes p) salt (passwordIterations : Int) passwordHashBytes)) =
      .ok true := by
  set key := pbkdf2Key (strBytes p) salt (passwordIterations : Int) passwordHashBytes with hkey
  have hkb : ∀ b ∈ key, b < 256 := pbkdf2Key_mem_lt _ _ _ _
  have h1 := checkPasswordHash_parsed p _ (natChars passwordIterations)
    (b64Encode salt) (b64Encode key) hp (splitOnColon_encoded salt key)
    _ parseIntGo_iterations salt key
    (b64Decode_b64Encode salt hb) (b64Decode_b64Encode key hkb)
  rw [h1]
  have hlen : key.length = passwordHashBytes := pbkdf2Key_length _ _ _ _
  rw [hlen, ← hkey]
  have hcmp : constantTimeCompare key key = 1 :=
    (constantTimeCompare_eq_one_iff key key hkb hkb).mpr rfl
  simp [hcmp]

/-- Different salts give different encoded strings (the salt field of the
encoding is injective in the salt). -/
theorem hash_ne_of_salt_ne (s1 s2 : List Nat)
    (h1b : ∀ b ∈ s1, b < 256) (h2b : ∀ b ∈ s2, b < 256) (hne : s1 ≠ s2)
    (k1 k2 : List Nat) :
    (passwordAlgorithmKey ++ ':' :: natChars passwordIterations ++
        ':' :: b64Encode s1 ++ ':' :: b64Encode k1) ≠
      (passwordAlgorithmKey ++ ':' :: natChars passwordIterations ++
        ':' :: b64Encode s2 ++ ':' :: b64Encode k2) := by
  intro he
  have hs := congrArg splitOnColon he
  rw [splitOnColon_encoded s1 k1, splitOnColon_encoded s2 k2] at hs
  simp only [List.cons.injEq, and_true] at hs
  exact hne (b64Encode_inj h1b h2b hs.2.2.1)

theorem updateUserArg_absent (arg : UpdateUserParams) (salt : List Nat)
    (hv : arg.HashedPassword.Valid = false) : updateUserArg arg salt = .ok arg := by
  unfold updateUserArg
  rw [if_neg (by simp [hv])]
  rw [if_pos (by simp [hv])]

theorem updateUserArg_empty_new (arg : UpdateUserParams) (salt : List Nat)
    (hv : arg.HashedPassword.Valid = true) (hs : arg.HashedPassword.String = []) :
    updateUserArg arg salt =
      .ok { arg with HashedPassword := ⟨[], false⟩ } := by
  unfold updateUserArg
  rw [if_neg (by simp [hs])]
  rw [if_neg (by simp [hv])]
  rw [if_pos hs]
  simp [hs]

/-! ## Claim theorems -/

/-- Claim C1: for every non-empty plaintext `p` and every 16-byte salt the
encoder's random source can supply, `HashPassword` succeeds and
`CheckPasswordHash` applied to `p` and the produced encoded hash returns
`(true, nil)`. -/
theorem checkPasswordHash_of_hashPassword (p : List Char) (salt : List Nat)
    (hp : p ≠ []) (hlen : salt.length = passwordSaltBytes)
    (hb : ∀ b ∈ salt, b < 256) :
    ∃ enc, HashPassword p salt = .ok enc ∧ CheckPasswordHash p enc = .ok true :=
  ⟨_, hashPassword_eq p salt hp, check_of_hash_aux p salt hp hb⟩

/-- Witness for C1 at the plaintext `"a"` and the all-zero 16-byte salt. -/
theorem checkPasswordHash_of_hashPassword_witness :
    (("a".toList) ≠ [] ∧ (List.replicate 16 (0 : Nat)).length = passwordSaltBytes ∧
      (∀ b ∈ List.replicate 16 (0 : Nat), b < 256)) ∧
    ∃ enc, HashPassword ("a".toList) (List.replicate 16 0) = .ok enc ∧
      CheckPasswordHash ("a".toList) enc = .ok true :=
  ⟨⟨by decide, by decide, by decide⟩,
    checkPasswordHash_of_hashPassword _ _ (by decide) (by decide) (by decide)⟩

/-- Claim C5: two `HashPassword` runs on the same non-empty plaintext with
distinct 16-byte salts produce two different encoded strings, and each
verifies successfully against that plaintext. -/
theorem hashPassword_distinct_salts (p : List Char) (s1 s2 : List Nat)
    (hp : p ≠ []) (hl1 : s1.length = passwordSaltBytes)
    (hl2 : s2.length = passwordSaltBytes)
    (hb1 : ∀ b ∈ s1, b < 256) (hb2 : ∀ b ∈ s2, b < 256) (hne : s1 ≠ s2) :
    ∃ e1 e2, HashPassword p s1 = .ok e1 ∧ HashPassword p s2 = .ok e2 ∧
      e1 ≠ e2 ∧ CheckPasswordHash p e1 = .ok true ∧
      CheckPasswordHash p e2 = .ok true :=
  ⟨_, _, hashPassword_eq p s1 hp, hashPassword_eq p s2 hp,
    hash_ne_of_salt_ne s1 s2 hb1 hb2 hne _ _,
    check_of_hash_aux p s1 hp hb1, check_of_hash_aux p s2 hp hb2⟩

/-- Witness for C5 at the plaintext `"a"` and two distinct concrete salts. -/
theorem hashPassword_distinct_salts_witness :
    ((List.replicate 16 (0 : Nat)) ≠ (1 :: List.replicate 15 (0 : Nat))) ∧
    ∃ e1 e2, HashPassword ("a".toList) (List.replicate 16 0) = .ok e1 ∧
      HashPassword ("a".toList) (1 :: List.replicate 15 0) = .ok e2 ∧
      e1 ≠ e2 ∧ CheckPasswordHash ("a".toList) e1 = .ok true ∧
      CheckPasswordHash ("a".toList) e2 = .ok true :=
  ⟨by decide,
    hashPassword_distinct_salts _ _ _ (by decide) (by decide) (by decide)
      (by decide) (by decide) (by decide)⟩

/-- Claim C9: the string `HashPassword` produces splits on `':'` into exactly
the four fields `pbkdf2-sha256`, `1000000`, the 22-character unpadded base64
of the 16 salt bytes and the 43-character unpadded base64 of the 32-byte
derived key, and no field contains the `':'` delimiter. -/
theorem hashPassword_encoding_format (p : List Char) (salt : List Nat)
    (hp : p ≠ []) (hlen : salt.length = passwordSaltBytes)
    (hb : ∀ b ∈ salt, b < 256) :
    ∃ enc key, HashPassword p salt = .ok enc ∧
      key = pbkdf2Key (strBytes p) salt (passwordIterations : Int) passwordHashBytes ∧
      key.length = 32 ∧
      splitOnColon enc =
        [passwordAlgorithmKey, ("1000000".toList), b64Encode salt, b64Encode key] ∧
      (b64Encode salt).length = 22 ∧ (b64Encode key).length = 43 ∧
      (∀ c ∈ passwordAlgorithmKey, c ≠ ':') ∧
      (∀ c ∈ ("1000000".toList), c ≠ ':') ∧
      (∀ c ∈ b64Encode salt, c ≠ ':') ∧ (∀ c ∈ b64Encode key, c ≠ ':') := by
  refine ⟨_, _, hashPassword_eq p salt hp, rfl, ?_, ?_, ?_, ?_, ?_, ?_, ?_, ?_⟩
  · exact pbkdf2Key_length _ _ _ _
  · rw [← show natChars passwordIterations = ("1000000".toList) from by decide]
    exact splitOnColon_encoded salt _
  · rw [b64Encode_length, hlen]
    decide
  · rw [b64Encode_length, pbkdf2Key_length]
    decide
  · decide
  · decide
  · exact fun c hc hcolon => colon_not_mem_b64Encode salt (hcolon ▸ hc)
  · exact fun c hc hcolon => colon_not_mem_b64Encode _ (hcolon ▸ hc)

/-- Witness for C9 at the plaintext `"a"` and the all-zero 16-byte salt. -/
theorem hashPassword_encoding_format_witness :
    ∃ enc key, HashPassword ("a".toList) (List.replicate 16 0) = .ok enc ∧
      key = pbkdf2Key (strBytes ("a".toList)) (List.replicate 16 0)
        (passwordIterations : Int) passwordHashBytes ∧
      key.length = 32 ∧
      splitOnColon enc =
        [passwordAlgorithmKey, ("1000000".toList),
          b64Encode (List.replicate 16 0), b64Encode key] ∧
      (b64Encode (List.replicate 16 0)).length = 22 ∧ (b64Encode key).length = 43 ∧
      (∀ c ∈ passwordAlgorithmKey, c ≠ ':') ∧
      (∀ c ∈ ("1000000".toList), c ≠ ':') ∧
      (∀ c ∈ b64Encode (List.replicate 16 0), c ≠ ':') ∧
      (∀ c ∈ b64Encode key, c ≠ ':') :=
  hashPassword_encoding_format _ _ (by decide) (by decide) (by decide)

/-- Claim C4: the digest comparison is Go's `subtle.ConstantTimeCompare`:
its result agrees with the instrumented version whose loop visits a number
of byte positions that depends only on the input lengths (never on the byte
values or the position of a first mismatch — no early exit), and in
`CheckPasswordHash` the two compared byte lists always have equal length, so
the length guard never short-circuits on the digest bytes. -/
theorem constantTimeCompare_time_independent :
    (∀ x y : List Nat, (constantTimeCompareInstr x y).1 = constantTimeCompare x y) ∧
    (∀ x y : List Nat,
      (constantTimeCompareInstr x y).2 =
        if x.length = y.length then x.length else 0) ∧
    (∀ (pw salt : List Nat) (iter : Int) (hash : List Nat),
      (pbkdf2Key pw salt iter hash.length).length = hash.length) := by
  refine ⟨?_, ?_, fun pw salt iter hash => pbkdf2Key_length _ _ _ _⟩
  · intro x y
    unfold constantTimeCompareInstr constantTimeCompare
    by_cases h : x.length = y.length
    · rw [if_pos h, if_pos h]
      simp only [foldl_instr_spec]
    · rw [if_neg h, if_neg h]
  · intro x y
    unfold constantTimeCompareInstr
    by_cases h : x.length = y.length
    · rw [if_pos h, if_pos h]
      simp only [foldl_instr_spec]
      rw [List.length_zip]
      omega
    · rw [if_neg h, if_neg h]

/-- Claim C6: a non-empty stored hash that does not split into exactly four
`':'`-separated fields is rejected with the invalid-hash-format error. -/
theorem checkPasswordHash_wrong_field_count (p sh : List Char)
    (hp : p ≠ []) (hsh : sh ≠ []) (hn : (splitOnColon sh).length ≠ 4) :
    CheckPasswordHash p sh = .error .invalidHashFormat := by
  unfold CheckPasswordHash
  rw [if_neg (by simp [hp, hsh])]
  rw [if_pos hn]

/-- Witness for C6 at `verify("x", "not:a:valid")` (three fields). -/
theorem checkPasswordHash_wrong_field_count_witness :
    (("x".toList) ≠ [] ∧ ("not:a:valid".toList) ≠ [] ∧
      (splitOnColon ("not:a:valid".toList)).length ≠ 4) ∧
    CheckPasswordHash ("x".toList) ("not:a:valid".toList) =
      .error .invalidHashFormat :=
  ⟨⟨by decide, by decide, by decide⟩,
    checkPasswordHash_wrong_field_count _ _ (by decide) (by decide) (by decide)⟩

/-- Claim C7: a stored hash with exactly four fields whose first field is not
`"pbkdf2-sha256"` is rejected with the incompatible-algorithm error. -/
theorem checkPasswordHash_unsupported_algorithm
    (p sh algo iters saltF digF : List Char) (hp : p ≠ [])
    (hsplit : splitOnColon sh = [algo, iters, saltF, digF])
    (halgo : algo ≠ passwordAlgorithmKey) :
    CheckPasswordHash p sh = .error .incompatibleAlgorithm := by
  have hshne := ne_nil_of_split_four hsplit
  unfold CheckPasswordHash
  rw [if_neg (by simp [hp, hshne])]
  simp only [hsplit]
  rw [if_neg (by simp)]
  rw [if_pos (by simpa [List.getD] using halgo)]

/-- Witness for C7 at `verify("x", "scrypt-whatever:1:AA:BB")`. -/
theorem checkPasswordHash_unsupported_algorithm_witness :
    (splitOnColon ("scrypt-whatever:1:AA:BB".toList) =
      [("scrypt-whatever".toList), ("1".toList), ("AA".toList), ("BB".toList)] ∧
      ("scrypt-whatever".toList) ≠ passwordAlgorithmKey) ∧
    CheckPasswordHash ("x".toList) ("scrypt-whatever:1:AA:BB".toList) =
      .error .incompatibleAlgorithm :=
  ⟨⟨by decide, by decide⟩,
    checkPasswordHash_unsupported_algorithm ("x".toList)
      ("scrypt-whatever:1:AA:BB".toList) ("scrypt-whatever".toList)
      ("1".toList) ("AA".toList) ("BB".toList) (by decide) (by decide)
      (by decide)⟩

/-- Claim C8: `HashPassword("")` fails with its empty-input error, and
`CheckPasswordHash` with an empty plaintext or an empty stored hash fails
with its empty-input error. -/
theorem password_empty_input_errors :
    (∀ salt : List Nat, HashPassword [] salt = .error .emptyPassword) ∧
    (∀ sh : List Char, CheckPasswordHash [] sh = .error .emptyInput) ∧
    (∀ p : List Char, CheckPasswordHash p [] = .error .emptyInput) := by
  refine ⟨fun salt => rfl, fun sh => ?_, fun p => ?_⟩
  · unfold CheckPasswordHash
    rw [if_pos (Or.inl rfl)]
  · unfold CheckPasswordHash
    rw [if_pos (Or.inr rfl)]

/-- Claim C2 (amended): with four fields and the supported algorithm, an
iterations field that fails to scan as an integer makes `CheckPasswordHash`
return the iterations-parse error without reaching key derivation; a field
that parses to a non-positive value is NOT rejected (the code never checks
the sign, see the C2 counterexample). -/
theorem checkPasswordHash_iterations_parse_failure
    (p sh iters saltF digF : List Char) (hp : p ≠ [])
    (hsplit : splitOnColon sh = [passwordAlgorithmKey, iters, saltF, digF])
    (hfail : parseIntGo iters = .error ()) :
    CheckPasswordHash p sh = .error .parseIterations := by
  have hshne := ne_nil_of_split_four hsplit
  unfold CheckPasswordHash
  rw [if_neg (by simp [hp, hshne])]
  simp only [hsplit]
  rw [if_neg (by simp)]
  rw [if_neg (by simp [List.getD])]
  rw [show ([passwordAlgorithmKey, iters, saltF, digF]).getD 1 ([] : List Char) =
    iters from rfl, hfail]

/-- Witness for the amended C2 at the unparsable iterations field `"abc"`. -/
theorem checkPasswordHash_iterations_parse_failure_witness :
    (splitOnColon ("pbkdf2-sha256:abc:AA:AA".toList) =
      [passwordAlgorithmKey, ("abc".toList), ("AA".toList), ("AA".toList)] ∧
      parseIntGo ("abc".toList) = .error ()) ∧
    CheckPasswordHash ("x".toList) ("pbkdf2-sha256:abc:AA:AA".toList) =
      .error .parseIterations :=
  ⟨⟨by decide, by decide⟩,
    checkPasswordHash_iterations_parse_failure ("x".toList)
      ("pbkdf2-sha256:abc:AA:AA".toList) ("abc".toList) ("AA".toList)
      ("AA".toList) (by decide) (by decide) (by decide)⟩

/-- Counterexample to C2 as stated: the iterations field `"0"` parses to the
non-positive value 0, yet `CheckPasswordHash` returns `(false, nil)` — no
error, and key derivation does run (its result is what is compared). -/
theorem checkPasswordHash_zero_iterations_no_error :
    parseIntGo ("0".toList) = .ok 0 ∧
    CheckPasswordHash ("x".toList) ("pbkdf2-sha256:0:AA:AA".toList) =
      .ok false :=
  ⟨by decide, by decide⟩

/-- Claim C3 (amended): when the stored hash parses (four fields, supported
algorithm, scannable iterations, valid base64 salt and digest) and the
re-derived key differs from the decoded digest, the result is `(false, nil)`
— a boolean, not an error. -/
theorem checkPasswordHash_digest_mismatch_false
    (p sh iters saltF digF : List Char) (hp : p ≠ [])
    (hsplit : splitOnColon sh = [passwordAlgorithmKey, iters, saltF, digF])
    (it : Int) (hit : parseIntGo iters = .ok it)
    (salt hash : List Nat) (hs : b64Decode saltF = some salt)
    (hh : b64Decode digF = some hash)
    (hne : hash ≠ pbkdf2Key (strBytes p) salt it hash.length) :
    CheckPasswordHash p sh = .ok false := by
  rw [checkPasswordHash_parsed p sh iters saltF digF hp hsplit it hit salt hash hs hh]
  have hhb : ∀ b ∈ hash, b < 256 := b64Decode_mem_lt digF hash hh
  have hcb : ∀ b ∈ pbkdf2Key (strBytes p) salt it hash.length, b < 256 :=
    pbkdf2Key_mem_lt _ _ _ _
  have hc1 : constantTimeCompare hash (pbkdf2Key (strBytes p) salt it hash.length) ≠ 1 :=
    fun h1 => hne ((constantTimeCompare_eq_one_iff _ _ hhb hcb).mp h1)
  simp [hc1]

/-- Witness for the amended C3: the stored digest `"AA"` (the byte `0x00`)
differs from the one-byte key derived with one iteration. -/
theorem checkPasswordHash_digest_mismatch_false_witness :
    ([0] ≠ pbkdf2Key (strBytes ("x".toList)) [0] 1 (List.length [0]) ∧
      b64Decode ("AA".toList) = some [0]) ∧
    CheckPasswordHash ("x".toList) ("pbkdf2-sha256:1:AA:AA".toList) = .ok false :=
  ⟨⟨by decide, by decide⟩,
    checkPasswordHash_digest_mismatch_false ("x".toList)
      ("pbkdf2-sha256:1:AA:AA".toList) ("1".toList) ("AA".toList) ("AA".toList)
      (by decide) (by decide) 1 (by decide) [0] [0] (by decide) (by decide)
      (by decide)⟩

/-- Counterexample to C3's "in particular" sentence as stated: take the valid
encoded hash `pbkdf2-sha256:1:<22 A's>:<43 A's>` (it parses; verification
returns the plain boolean `false`).  Changing one character of its digest
portion to `'!'` does NOT make verification return `false` with a nil error:
it returns the decode-hash (malformed) error instead. -/
theorem checkPasswordHash_digest_corruption_error :
    (CheckPasswordHash ("x".toList)
      ("pbkdf2-sha256:1:AAAAAAAAAAAAAAAAAAAAAA:AAAAAAAAAAAAAAAAAAAAAAAAAAAAAAAAAAAAAAAAAAA".toList) =
      .ok false) ∧
    (CheckPasswordHash ("x".toList)
      ("pbkdf2-sha256:1:AAAAAAAAAAAAAAAAAAAAAA:!AAAAAAAAAAAAAAAAAAAAAAAAAAAAAAAAAAAAAAAAAA".toList) =
      .error .decodeHash) :=
  ⟨by decide, by decide⟩

/-- Claim C10: in the repository's `UpdateUser`, an absent new password
(`Valid == false`) forwards the parameters untouched, and a present but
empty new password only clears the `Valid` flag; in both cases the forwarded
parameters carry a SQL-null password and every other field is unchanged. -/
theorem updateUser_optional_password (arg : UpdateUserParams) (salt : List Nat) :
    (arg.HashedPassword.Valid = false → updateUserArg arg salt = .ok arg) ∧
    (arg.HashedPassword.Valid = true → arg.HashedPassword.String = [] →
      updateUserArg arg salt = .ok { arg with HashedPassword := ⟨[], false⟩ }) ∧
    ((arg.HashedPassword.Valid = false ∨ arg.HashedPassword.String = []) →
      ∀ res, updateUserArg arg salt = .ok res →
        res.HashedPassword.Valid = false ∧ res.ID = arg.ID ∧
        res.FirstName = arg.FirstName ∧ res.LastName = arg.LastName ∧
        res.Email = arg.Email) := by
  refine ⟨fun hv => updateUserArg_absent arg salt hv,
    fun hv hs => updateUserArg_empty_new arg salt hv hs, ?_⟩
  intro hcase res hres
  rcases hcase with hv | hs
  · rw [updateUserArg_absent arg salt hv] at hres
    injection hres with hres
    subst hres
    exact ⟨hv, rfl, rfl, rfl, rfl⟩
  · by_cases hv : arg.HashedPassword.Valid = true
    · rw [updateUserArg_empty_new arg salt hv hs] at hres
      injection hres with hres
      subst hres
      exact ⟨rfl, rfl, rfl, rfl, rfl⟩
    · have hv2 : arg.HashedPassword.Valid = false := by simpa using hv
      rw [updateUserArg_absent arg salt hv2] at hres
      injection hres with hres
      subst hres
      exact ⟨hv2, rfl, rfl, rfl, rfl⟩

/-- Witness for C10: one concrete run with the password field absent and one
with a present-but-empty password. -/
theorem updateUser_optional_password_witness :
    updateUserArg
      ⟨1, ⟨("Ada".toList), true⟩, ⟨[], false⟩, ⟨("ab".toList), true⟩,
        ⟨("zz".toList), false⟩⟩ [] =
      .ok ⟨1, ⟨("Ada".toList), true⟩, ⟨[], false⟩, ⟨("ab".toList), true⟩,
        ⟨("zz".toList), false⟩⟩ ∧
    updateUserArg ⟨2, ⟨[], false⟩, ⟨[], false⟩, ⟨[], false⟩, ⟨[], true⟩⟩ [] =
      .ok ⟨2, ⟨[], false⟩, ⟨[], false⟩, ⟨[], false⟩, ⟨[], false⟩⟩ :=
  ⟨(updateUser_optional_password _ _).1 rfl,
    (updateUser_optional_password _ _).2.1 rfl rfl⟩

end GoApiBuilder
